import Mathlib

/-!
Shallow embedding of the Checkers engine (board.py, piece.py, coordinate.py,
constants.py, ai_player.py).  Mutable Python objects become values threaded
explicitly: a method that mutates the board returns the updated board, and a
method that mutates a piece returns the updated piece.  Python sets of
coordinates / pieces become lists built in a fixed scan order; all the
properties proved below are stated up to list membership or on concrete
singleton results, so the unspecified iteration order of a Python set is
never relied upon.
-/

namespace Checkers

/-- coordinate.py: a (row, col) pair.  Rows and columns are Python ints, so
they are modelled as `Int` (destinations such as `row - 2` can be negative
before the bounds check rejects them). -/
structure Coordinate where
  row : Int
  col : Int
deriving DecidableEq, Repr

/-- `Coordinate.is_in_bounds`: both components in [0, 8). -/
def Coordinate.is_in_bounds (c : Coordinate) : Bool :=
  decide (0 ≤ c.row ∧ c.row < 8 ∧ 0 ≤ c.col ∧ c.col < 8)

/-- A Python value used as a piece colour: either an RGB tuple from
constants.py or a string such as "BLACK" (board.py's
`pieces_with_valid_moves` accepts both and the AI passes strings). -/
inductive PyColor where
  | rgb (r g b : Nat)
  | str (s : String)
deriving DecidableEq, Repr

/-- constants.py: `PIECE_RED = (233, 28, 38)`. -/
def PIECE_RED : PyColor := .rgb 233 28 38

/-- constants.py: `PIECE_BLACK = (54, 52, 53)`. -/
def PIECE_BLACK : PyColor := .rgb 54 52 53

/-- piece.py: a piece with a (denormalised) position, king flag and colour.
Python compares pieces by value (`__eq__` on row, col, color, is_king), which
is exactly structural equality here. -/
structure Piece where
  row : Int
  col : Int
  is_king : Bool
  color : PyColor
deriving DecidableEq, Repr

/-- piece.py `Piece.king()`: promote when a BLACK piece stands on row 7 or a
RED piece on row 0 and it is not already a king.  Returns the Python return
value (whether the piece was newly promoted) together with the updated
piece. -/
def Piece.king (piece : Piece) : Bool × Piece :=
  if ((piece.color = PIECE_BLACK ∧ piece.row = 7) ∨
      (piece.color = PIECE_RED ∧ piece.row = 0)) ∧ piece.is_king = false then
    (true, { piece with is_king := true })
  else
    (false, piece)

/-- board.py: the board state.  `grid` is the 8×8 array `_board` as a map
from coordinates to an optional piece (`EMPTY = None` becomes `none`); the
code only ever indexes it at in-bounds coordinates.  The counters are Python
ints. -/
structure Board where
  grid : Coordinate → Option Piece
  selected_piece : Option Piece
  valid_moves : List Coordinate
  black_regular_left : Int
  black_kings_left : Int
  black_pieces_left : Int
  red_regular_left : Int
  red_kings_left : Int
  red_pieces_left : Int
  current_turn : String

/-- board.py `Board.__init__` (the drawing-related fields are dropped; the
grid starts empty, `place_starting_pieces` fills it). -/
def Board.init : Board :=
  { grid := fun _ => none
    selected_piece := none
    valid_moves := []
    black_regular_left := 12
    black_kings_left := 0
    black_pieces_left := 12 + 0
    red_regular_left := 12
    red_kings_left := 0
    red_pieces_left := 12 + 0
    current_turn := "BLACK" }

/-- board.py `Board.get_piece`. -/
def Board.get_piece (b : Board) (coord : Coordinate) : Option Piece :=
  b.grid coord

/-- board.py `Board.set_board_at`. -/
def Board.set_board_at (b : Board) (coord : Coordinate) (piece : Option Piece) : Board :=
  { b with grid := fun c => if c = coord then piece else b.grid c }

/-- board.py `Board.place_starting_pieces`: BLACK pieces on the first three
rows and RED pieces on the last three, on the squares with `(row + col) % 2
== 1`.  The double loop writes each such cell exactly once, so it is
rendered as a pointwise grid update. -/
def Board.place_starting_pieces (b : Board) : Board :=
  { b with grid := fun c =>
      if 0 ≤ c.row ∧ c.row < 3 ∧ 0 ≤ c.col ∧ c.col < 8 ∧ (c.row + c.col) % 2 = 1 then
        some { row := c.row, col := c.col, is_king := false, color := PIECE_BLACK }
      else if 5 ≤ c.row ∧ c.row < 8 ∧ 0 ≤ c.col ∧ c.col < 8 ∧ (c.row + c.col) % 2 = 1 then
        some { row := c.row, col := c.col, is_king := false, color := PIECE_RED }
      else b.grid c }

/-- board.py `Board.get_move_type` (a method that never reads `self`):
classify the displacement as "ADJACENT", "JUMP" or `None`. -/
def get_move_type (piece : Piece) (destination : Coordinate) : Option String :=
  let row_diff := destination.row - piece.row
  let col_diff := destination.col - piece.col
  if col_diff.natAbs = 1 ∧
      (piece.is_king = true ∨ (piece.color = PIECE_BLACK ∧ row_diff = 1) ∨
        (piece.color = PIECE_RED ∧ row_diff = -1)) then
    some "ADJACENT"
  else if col_diff.natAbs = 2 ∧
      (piece.is_king = true ∨ (piece.color = PIECE_BLACK ∧ row_diff = 2) ∨
        (piece.color = PIECE_RED ∧ row_diff = -2)) then
    some "JUMP"
  else
    none

/-- board.py `Board.__is_valid_move`.  The `piece is EMPTY` disjunct of the
Python guard is dropped: callers always pass an actual piece (in Python a
`None` piece would already have crashed on `piece.row`).  The Python `or`
short-circuits, so `get_piece destination` is only consulted once both
coordinates are in bounds; the disjunction below has the same value.
The midpoint uses Python floor division `//`, i.e. `Int.fdiv`. -/
def Board.is_valid_move (b : Board) (piece : Piece) (destination : Coordinate) : Bool :=
  let start : Coordinate := { row := piece.row, col := piece.col }
  if ¬(start.is_in_bounds = true ∧ destination.is_in_bounds = true) ∨
      (b.get_piece destination).isSome = true then
    false
  else
    let row_diff := destination.row - start.row
    let col_diff := destination.col - start.col
    if get_move_type piece destination = some "ADJACENT" then
      true
    else
      let middle : Coordinate :=
        { row := start.row + Int.fdiv row_diff 2, col := start.col + Int.fdiv col_diff 2 }
      match b.get_piece middle with
      | some middle_piece =>
          decide (get_move_type piece destination = some "JUMP" ∧
            middle_piece.color ≠ piece.color)
      | none => false

/-- board.py `Board.get_single_jumps`: the jump directions tried, in source
order. -/
def jump_directions (piece : Piece) : List (Int × Int) :=
  (if piece.color = PIECE_BLACK ∨ piece.is_king = true then [(2, -2), (2, 2)] else []) ++
  (if piece.color = PIECE_RED ∨ piece.is_king = true then [(-2, -2), (-2, 2)] else [])

/-- board.py `Board.get_single_jumps`. -/
def Board.get_single_jumps (b : Board) (piece : Piece) : List Coordinate :=
  (jump_directions piece).filterMap fun d =>
    let jump_destination : Coordinate := { row := piece.row + d.1, col := piece.col + d.2 }
    if b.is_valid_move piece jump_destination = true then some jump_destination else none

/-- board.py `Board.get_adjacent_moves`: the directions tried, in source
order. -/
def adjacent_directions (piece : Piece) : List (Int × Int) :=
  (if piece.color = PIECE_BLACK ∨ piece.is_king = true then [(1, -1), (1, 1)] else []) ++
  (if piece.color = PIECE_RED ∨ piece.is_king = true then [(-1, -1), (-1, 1)] else [])

/-- board.py `Board.get_adjacent_moves`. -/
def Board.get_adjacent_moves (b : Board) (piece : Piece) : List Coordinate :=
  (adjacent_directions piece).filterMap fun d =>
    let destination : Coordinate := { row := piece.row + d.1, col := piece.col + d.2 }
    if b.is_valid_move piece destination = true then some destination else none

/-- board.py `Board.get_valid_moves`, as the value it returns (and stores in
`_valid_moves`): the single jumps when there are any, the adjacent moves
otherwise. -/
def Board.get_valid_moves (b : Board) (piece : Piece) : List Coordinate :=
  let adjacent_moves := b.get_adjacent_moves piece
  let jump_moves := b.get_single_jumps piece
  if jump_moves.length > 0 then jump_moves else adjacent_moves

/-- board.py `Board.move`.  Returns the Python return value together with the
board and the moved piece after the call (in Python both are mutated in
place).  `get_valid_moves` stores its result in `_valid_moves` before the
membership test, so that field is updated even on the early `return False`.
In the JUMP branch the Python code reads `middle_piece.color` — a crash if
the midpoint cell were empty; that cell is occupied for every destination
`get_valid_moves` can produce, and the unreachable `none` arm leaves the
board unchanged.  The grid cell at `destination` holds the piece as it is
after `Piece.king` ran, since in Python the grid aliases the piece object
that `king()` mutates. -/
def Board.move (b : Board) (piece : Piece) (destination : Coordinate) :
    Bool × Board × Piece :=
  let b := { b with valid_moves := b.get_valid_moves piece }
  if destination ∉ b.valid_moves then
    (false, b, piece)
  else
    let b :=
      if get_move_type piece destination = some "JUMP" then
        let row_diff := destination.row - piece.row
        let col_diff := destination.col - piece.col
        let middle_piece_coords : Coordinate :=
          { row := piece.row + Int.fdiv row_diff 2, col := piece.col + Int.fdiv col_diff 2 }
        match b.get_piece middle_piece_coords with
        | some middle_piece =>
            let b :=
              if middle_piece.color = PIECE_BLACK then
                if middle_piece.is_king = true then
                  { b with black_kings_left := b.black_kings_left - 1,
                           black_pieces_left := b.black_pieces_left - 1 }
                else
                  { b with black_regular_left := b.black_regular_left - 1,
                           black_pieces_left := b.black_pieces_left - 1 }
              else
                if middle_piece.is_king = true then
                  { b with red_kings_left := b.red_kings_left - 1,
                           red_pieces_left := b.red_pieces_left - 1 }
                else
                  { b with red_regular_left := b.red_regular_left - 1,
                           red_pieces_left := b.red_pieces_left - 1 }
            b.set_board_at middle_piece_coords none
        | none => b
      else b
    let b := b.set_board_at { row := piece.row, col := piece.col } none
    let piece := { piece with row := destination.row, col := destination.col }
    let kinged := piece.king
    let piece := kinged.2
    let b := b.set_board_at destination (some piece)
    let b :=
      if kinged.1 = true then
        if piece.color = PIECE_BLACK then
          { b with black_regular_left := b.black_regular_left - 1,
                   black_kings_left := b.black_kings_left + 1 }
        else
          { b with red_regular_left := b.red_regular_left - 1,
                   red_kings_left := b.red_kings_left + 1 }
      else b
    let b := { b with black_pieces_left := b.black_regular_left + b.black_kings_left,
                      red_pieces_left := b.red_regular_left + b.red_kings_left }
    (true, b, piece)

/-- board.py `Board.switch_player`. -/
def Board.switch_player (b : Board) : Board :=
  { b with selected_piece := none
           valid_moves := []
           current_turn := if b.current_turn = "BLACK" then "RED" else "BLACK" }

/-- board.py `Board.is_game_over`. -/
def Board.is_game_over (b : Board) : Bool :=
  decide (b.black_pieces_left = 0 ∨ b.red_pieces_left = 0)

/-- board.py `Board.winner`: "B" for black, "R" for red. -/
def Board.winner (b : Board) : String :=
  if b.red_pieces_left = 0 then "B" else "R"

/-- The 64 cells scanned by `pieces_with_valid_moves`'s
`for r in range(8): for c in range(8)` loops, in scan order. -/
def boardCells : List Coordinate :=
  (List.range 8).flatMap fun r => (List.range 8).map fun c => { row := (r : Int), col := (c : Int) }

/-- board.py `Board.pieces_with_valid_moves`, first lines: a colour argument
that is neither `PIECE_BLACK` nor `PIECE_RED` is replaced by `PIECE_BLACK`
when it equals the string "BLACK" and by `PIECE_RED` otherwise. -/
def normalize_color (color : PyColor) : PyColor :=
  if color = PIECE_BLACK ∨ color = PIECE_RED then color
  else if color = PyColor.str "BLACK" then PIECE_BLACK else PIECE_RED

/-- board.py `Board.pieces_with_valid_moves`: the pieces of the (normalised)
colour with a single jump available; only when there are none, the pieces of
that colour with an adjacent move available. -/
def Board.pieces_with_valid_moves (b : Board) (color : PyColor) : List Piece :=
  let color := normalize_color color
  let pieces := boardCells.filterMap fun cell =>
    match b.get_piece cell with
    | some piece =>
        if (b.get_single_jumps piece).length > 0 ∧ piece.color = color then some piece
        else none
    | none => none
  if pieces.length = 0 then
    boardCells.filterMap fun cell =>
      match b.get_piece cell with
      | some piece =>
          if (b.get_adjacent_moves piece).length > 0 ∧ piece.color = color then some piece
          else none
      | none => none
  else pieces

/-- One call of the game-state mutators from the Board interface: `move`
(with its piece and destination arguments) or `switch_player`. -/
inductive BoardOp where
  | move (piece : Piece) (destination : Coordinate)
  | switch_player

/-- Run one mutating call against the board, keeping the board it leaves
behind (the Python methods mutate `self`). -/
def applyOp (b : Board) : BoardOp → Board
  | .move piece destination => (b.move piece destination).2.1
  | .switch_player => b.switch_player

/-- Run a sequence of mutating calls. -/
def applyOps (b : Board) (ops : List BoardOp) : Board :=
  ops.foldl applyOp b

/-!
ai_player.py.  The search values mix Python ints with `float("-inf")` /
`float("inf")`, so they are modelled as integers with two infinities. -/

/-- The type of search values: ℤ extended with -∞ (`⊥`) and +∞ (`⊤`). -/
abbrev EInt := WithBot (WithTop ℤ)

/-- An integer utility as a search value. -/
def toE (n : ℤ) : EInt := ((n : WithTop ℤ) : WithBot (WithTop ℤ))

/-- ai_player.py `AI.evaluate`: kings count 3, regular pieces 1, RED
negated. -/
def AI.evaluate (b : Board) : ℤ :=
  (b.black_regular_left + 3 * b.black_kings_left) +
    (-1) * (b.red_regular_left + 3 * b.red_kings_left)

/-- ai_player.py `AI.player`. -/
def AI.player (b : Board) : String := b.current_turn

/-- ai_player.py `AI.terminal`. -/
def AI.terminal (b : Board) : Bool := b.is_game_over

/-- ai_player.py `AI.moves`.  In Python this call also overwrites the
board's `_valid_moves`; no later computation reads that field before
overwriting it again, so only the returned value is modelled. -/
def AI.moves (b : Board) (piece : Piece) : List Coordinate := b.get_valid_moves piece

/-- ai_player.py `AI.result` as the full call: `deepcopy` the board and the
piece, `move` and `switch_player` the copies, return the copy.  The triple
is (the caller's board after the call, the caller's piece after the call,
the returned board): the first two equal the inputs because only the deep
copies are mutated. -/
def AI.result_call (b : Board) (piece : Piece) (destination : Coordinate) :
    Board × Piece × Board :=
  let board_obj_copy := b
  let piece_copy := piece
  let moved := board_obj_copy.move piece_copy destination
  (b, piece, (moved.2.1).switch_player)

/-- ai_player.py `AI.result`: the board the call returns. -/
def AI.result (b : Board) (piece : Piece) (destination : Coordinate) : Board :=
  (AI.result_call b piece destination).2.2

/-!
`AI.min_value` / `AI.max_value` (ai_player.py): depth-limited alpha-beta.
The Python `for piece ... : for move ... :` loops become the explicit
recursions `*_pieces` (outer loop) and `*_moves` (inner loop); the `break`
leaves only the inner loop, exactly as in Python, so after a cutoff the
remaining moves of the current piece are skipped but the next piece is still
scanned.  `depth - 1`, constant throughout the loops, is computed once on
entry to the loop instead of at each call site. -/

mutual

/-- ai_player.py `AI.min_value`. -/
def AI.min_value (b : Board) (alpha beta : EInt) (depth : Nat) : EInt :=
  if AI.terminal b = true ∨ depth = 0 then toE (AI.evaluate b)
  else (AI.min_pieces b (b.pieces_with_valid_moves (.str (AI.player b)))
          alpha beta (depth - 1) ⊤).1
termination_by (depth, 0, 0)

/-- The `for piece in board_obj.pieces_with_valid_moves(...)` loop of
`min_value`; the state is (min_val, beta). -/
def AI.min_pieces (b : Board) (ps : List Piece) (alpha beta : EInt) (d : Nat)
    (min_val : EInt) : EInt × EInt :=
  match ps with
  | [] => (min_val, beta)
  | p :: rest =>
      let inner := AI.min_moves b p (AI.moves b p) alpha beta d min_val
      AI.min_pieces b rest alpha inner.2 d inner.1
termination_by (d, 2, ps.length)

/-- The `for move in self.moves(board_obj, piece)` loop of `min_value`, with
its `break` once `beta <= alpha`. -/
def AI.min_moves (b : Board) (p : Piece) (ms : List Coordinate) (alpha beta : EInt)
    (d : Nat) (min_val : EInt) : EInt × EInt :=
  match ms with
  | [] => (min_val, beta)
  | mv :: rest =>
      let v := AI.max_value (AI.result b p mv) alpha beta d
      let min_val := min min_val v
      let beta := min beta min_val
      if beta ≤ alpha then (min_val, beta)
      else AI.min_moves b p rest alpha beta d min_val
termination_by (d, 1, ms.length)

/-- ai_player.py `AI.max_value`. -/
def AI.max_value (b : Board) (alpha beta : EInt) (depth : Nat) : EInt :=
  if AI.terminal b = true ∨ depth = 0 then toE (AI.evaluate b)
  else (AI.max_pieces b (b.pieces_with_valid_moves (.str (AI.player b)))
          alpha beta (depth - 1) ⊥).1
termination_by (depth, 0, 0)

/-- The outer loop of `max_value`; the state is (max_val, alpha). -/
def AI.max_pieces (b : Board) (ps : List Piece) (alpha beta : EInt) (d : Nat)
    (max_val : EInt) : EInt × EInt :=
  match ps with
  | [] => (max_val, alpha)
  | p :: rest =>
      let inner := AI.max_moves b p (AI.moves b p) alpha beta d max_val
      AI.max_pieces b rest inner.2 beta d inner.1
termination_by (d, 2, ps.length)

/-- The inner loop of `max_value`, with its `break` once `beta <= alpha`. -/
def AI.max_moves (b : Board) (p : Piece) (ms : List Coordinate) (alpha beta : EInt)
    (d : Nat) (max_val : EInt) : EInt × EInt :=
  match ms with
  | [] => (max_val, alpha)
  | mv :: rest =>
      let v := AI.min_value (AI.result b p mv) alpha beta d
      let max_val := max max_val v
      let alpha := max alpha max_val
      if beta ≤ alpha then (max_val, alpha)
      else AI.max_moves b p rest alpha beta d max_val
termination_by (d, 1, ms.length)

end

/-- The `case "BLACK"` root loop of ai_player.py `AI.minimax`: the state is
(best_val, the chosen (best_piece, best_move), alpha); beta stays
`float("inf")` throughout and the root loop itself never breaks.  Python
keeps `best_piece` and `best_move` as two variables that are always `None`
together or set together, hence one optional pair here. -/
def AI.root_black (b : Board) (depth : Nat) : EInt × Option (Piece × Coordinate) × EInt :=
  (b.pieces_with_valid_moves (.str (AI.player b))).foldl
    (fun acc p =>
      (AI.moves b p).foldl
        (fun (acc : EInt × Option (Piece × Coordinate) × EInt) mv =>
          let val := AI.min_value (AI.result b p mv) acc.2.2 ⊤ depth
          let acc := if acc.1 < val then (val, some (p, mv), acc.2.2) else acc
          (acc.1, acc.2.1, max acc.2.2 acc.1))
        acc)
    ((⊥ : EInt), none, (⊥ : EInt))

/-- The `case "RED"` root loop of ai_player.py `AI.minimax`: the state is
(best_val, the chosen (best_piece, best_move), beta); alpha stays
`float("-inf")` throughout. -/
def AI.root_red (b : Board) (depth : Nat) : EInt × Option (Piece × Coordinate) × EInt :=
  (b.pieces_with_valid_moves (.str (AI.player b))).foldl
    (fun acc p =>
      (AI.moves b p).foldl
        (fun (acc : EInt × Option (Piece × Coordinate) × EInt) mv =>
          let val := AI.max_value (AI.result b p mv) ⊥ acc.2.2 depth
          let acc := if val < acc.1 then (val, some (p, mv), acc.2.2) else acc
          (acc.1, acc.2.1, min acc.2.2 acc.1))
        acc)
    ((⊤ : EInt), none, (⊤ : EInt))

/-- ai_player.py `AI.minimax`: `None` when the board is terminal, otherwise
the `(best_piece, best_move)` pair (each `None` when no candidate beat the
initial best value, and both `None` when the turn string matches neither
case).  `look_moves_ahead = 5`. -/
def AI.minimax (b : Board) : Option (Option Piece × Option Coordinate) :=
  if AI.terminal b = true then none
  else
    let look_moves_ahead := 5
    if AI.player b = "BLACK" then
      match (AI.root_black b look_moves_ahead).2.1 with
      | some pm => some (some pm.1, some pm.2)
      | none => some (none, none)
    else if AI.player b = "RED" then
      match (AI.root_red b look_moves_ahead).2.1 with
      | some pm => some (some pm.1, some pm.2)
      | none => some (none, none)
    else some (none, none)

/-!
The unpruned reference search for the refinement claim.  Modelled from the
spec: "the value obtained from an unpruned full-depth minimax on the same
board and depth" — the same expansion (`pieces_with_valid_moves`, then
`get_valid_moves`, then `result`) and the same terminal evaluation, but
every child is explored and no window is threaded. -/

/-- All child boards of a search node, in loop order. -/
def AI.allChildren (b : Board) : List Board :=
  (b.pieces_with_valid_moves (.str (AI.player b))).flatMap fun p =>
    (AI.moves b p).map fun mv => AI.result b p mv

mutual

/-- Unpruned minimizing value: the minimum of the children's maximizing
values (`⊤` when there is no child, as in `min_value`). -/
def AI.plain_min (b : Board) (depth : Nat) : EInt :=
  if AI.terminal b = true ∨ depth = 0 then toE (AI.evaluate b)
  else AI.plain_min_list (AI.allChildren b) (depth - 1) ⊤
termination_by (depth, 0, 0)

/-- Fold of `min` with `plain_max` over the children. -/
def AI.plain_min_list (cs : List Board) (d : Nat) (acc : EInt) : EInt :=
  match cs with
  | [] => acc
  | c :: rest => AI.plain_min_list rest d (min acc (AI.plain_max c d))
termination_by (d, 1, cs.length)

/-- Unpruned maximizing value. -/
def AI.plain_max (b : Board) (depth : Nat) : EInt :=
  if AI.terminal b = true ∨ depth = 0 then toE (AI.evaluate b)
  else AI.plain_max_list (AI.allChildren b) (depth - 1) ⊥
termination_by (depth, 0, 0)

/-- Fold of `max` with `plain_min` over the children. -/
def AI.plain_max_list (cs : List Board) (d : Nat) (acc : EInt) : EInt :=
  match cs with
  | [] => acc
  | c :: rest => AI.plain_max_list rest d (max acc (AI.plain_min c d))
termination_by (d, 1, cs.length)

end

/-- The unpruned value of the whole position for the maximizing root: the
maximum over the root's children of their unpruned minimizing values. -/
def AI.plain_root_black (b : Board) (depth : Nat) : EInt :=
  AI.plain_max_list (AI.allChildren b) depth ⊥

/-- The unpruned value of the whole position for the minimizing root. -/
def AI.plain_root_red (b : Board) (depth : Nat) : EInt :=
  AI.plain_min_list (AI.allChildren b) depth ⊤

/-!
Statement-side definitions: concrete scenario boards and the predicates the
claims are phrased with. -/

/-- The BLACK regular piece of the spec's Scenario A, at (2, 3). -/
def scenarioA_black : Piece := { row := 2, col := 3, is_king := false, color := PIECE_BLACK }

/-- The RED regular piece of the spec's Scenario A, at (3, 4). -/
def scenarioA_red : Piece := { row := 3, col := 4, is_king := false, color := PIECE_RED }

/-- Scenario A: a board empty except for `scenarioA_black` and
`scenarioA_red`, BLACK to move, counters matching the two pieces. -/
def scenarioA : Board :=
  { grid := fun c =>
      if c = { row := 2, col := 3 } then some scenarioA_black
      else if c = { row := 3, col := 4 } then some scenarioA_red
      else none
    selected_piece := none
    valid_moves := []
    black_regular_left := 1
    black_kings_left := 0
    black_pieces_left := 1
    red_regular_left := 1
    red_kings_left := 0
    red_pieces_left := 1
    current_turn := "BLACK" }

/-- Scenario C's piece: a BLACK regular piece at (6, 1), one diagonal step
from the promotion row. -/
def scenarioC_black : Piece := { row := 6, col := 1, is_king := false, color := PIECE_BLACK }

/-- Scenario C: a board empty except for `scenarioC_black` (and a far-away
RED piece so the position is not degenerate), BLACK to move. -/
def scenarioC : Board :=
  { grid := fun c =>
      if c = { row := 6, col := 1 } then some scenarioC_black
      else if c = { row := 0, col := 5 } then
        some { row := 0, col := 5, is_king := false, color := PIECE_RED }
      else none
    selected_piece := none
    valid_moves := []
    black_regular_left := 1
    black_kings_left := 0
    black_pieces_left := 1
    red_regular_left := 1
    red_kings_left := 0
    red_pieces_left := 1
    current_turn := "BLACK" }

/-- A board holds a piece (as a value) iff some scanned cell contains it. -/
def Board.hasPiece (b : Board) (p : Piece) : Prop :=
  ∃ c ∈ boardCells, b.get_piece c = some p

/-- Some piece of the given colour on the board has a single jump available
(the condition deciding which of its two scans `pieces_with_valid_moves`
returns). -/
def Board.colorHasJump (b : Board) (color : PyColor) : Bool :=
  boardCells.any fun c =>
    match b.get_piece c with
    | some q => decide ((b.get_single_jumps q).length > 0 ∧ q.color = color)
    | none => false

/-- The counter invariant of the spec: each side's total equals its regular
count plus its king count. -/
def countersCoherent (b : Board) : Prop :=
  b.black_pieces_left = b.black_regular_left + b.black_kings_left ∧
  b.red_pieces_left = b.red_regular_left + b.red_kings_left

/-- Fail-soft alpha-beta specification: within the window the value is
exact, a fail-low proves the true value is at most alpha, and a fail-high
proves it is at least beta. -/
def EHL (v m alpha beta : EInt) : Prop :=
  (alpha < v → v < beta → v = m) ∧ (v ≤ alpha → m ≤ alpha) ∧ (beta ≤ v → beta ≤ m)

/-- Loop invariant for `min_value`'s scan: `V` is the running `min_val`, `M`
the running minimum of the scanned children's unpruned values.  While `V`
is above alpha the two agree up to clipping at beta; once `V` falls to
alpha or below, the true minimum is also at most alpha. -/
def InvMin (alpha beta V M : EInt) : Prop :=
  (alpha < V → min beta V ≤ M ∧ min beta M ≤ V) ∧ (V ≤ alpha → M ≤ alpha)

/-- Loop invariant for `max_value`'s scan, dual to `InvMin`. -/
def InvMax (alpha beta A M : EInt) : Prop :=
  (A < beta → M ≤ max alpha A ∧ A ≤ max alpha M) ∧ (beta ≤ A → beta ≤ M)

/-- The root loop's (piece, move) candidates in loop order, flattened. -/
def AI.rootPairs (b : Board) : List (Piece × Coordinate) :=
  (b.pieces_with_valid_moves (.str (AI.player b))).flatMap fun p =>
    (AI.moves b p).map fun mv => (p, mv)

/-- One step of `root_black`'s candidate loop, over a flattened (piece,
move) pair: evaluate the child with the current window, keep it if it beats
the best value strictly, then raise alpha. -/
def AI.root_black_step (b : Board) (depth : Nat)
    (acc : EInt × Option (Piece × Coordinate) × EInt) (pm : Piece × Coordinate) :
    EInt × Option (Piece × Coordinate) × EInt :=
  let val := AI.min_value (AI.result b pm.1 pm.2) acc.2.2 ⊤ depth
  let acc := if acc.1 < val then (val, some pm, acc.2.2) else acc
  (acc.1, acc.2.1, max acc.2.2 acc.1)

/-- One step of `root_red`'s candidate loop, over a flattened pair. -/
def AI.root_red_step (b : Board) (depth : Nat)
    (acc : EInt × Option (Piece × Coordinate) × EInt) (pm : Piece × Coordinate) :
    EInt × Option (Piece × Coordinate) × EInt :=
  let val := AI.max_value (AI.result b pm.1 pm.2) ⊥ acc.2.2 depth
  let acc := if val < acc.1 then (val, some pm, acc.2.2) else acc
  (acc.1, acc.2.1, min acc.2.2 acc.1)

/-- Every piece on the grid is coloured `PIECE_BLACK` or `PIECE_RED`.  The
program only ever constructs pieces with these two colours
(`place_starting_pieces`), so every reachable board satisfies this. -/
def Board.wellColored (b : Board) : Prop :=
  ∀ (c : Coordinate) (q : Piece), b.grid c = some q →
    q.color = PIECE_BLACK ∨ q.color = PIECE_RED

/-!
Theorems.  First a few shared lemmas about the board operations. -/

/-- `move` on a destination outside the recomputed legal destinations:
returns `False`, stores the recomputed destinations in `_valid_moves`, and
changes nothing else (neither board nor piece). -/
theorem move_not_mem (b : Board) (piece : Piece) (destination : Coordinate)
    (h : destination ∉ b.get_valid_moves piece) :
    b.move piece destination =
      (false, { b with valid_moves := b.get_valid_moves piece }, piece) := by
  unfold Board.move
  simp [h]

/-- A successful `move` call had its destination among the recomputed legal
destinations. -/
theorem move_succ_mem (b : Board) (piece : Piece) (destination : Coordinate)
    (h : (b.move piece destination).1 = true) :
    destination ∈ b.get_valid_moves piece := by
  by_contra hnot
  rw [move_not_mem b piece destination hnot] at h
  exact Bool.false_ne_true h

/-- C1.  `get_valid_moves` returns exactly the single jumps whenever there
are any and exactly the adjacent moves otherwise; on Scenario A's board the
BLACK piece's legal destinations are exactly {(4, 5)}. -/
theorem get_valid_moves_mandatory_capture :
    (∀ (b : Board) (piece : Piece),
        (b.get_single_jumps piece ≠ [] →
          b.get_valid_moves piece = b.get_single_jumps piece) ∧
        (b.get_single_jumps piece = [] →
          b.get_valid_moves piece = b.get_adjacent_moves piece)) ∧
    scenarioA.get_single_jumps scenarioA_black = [{ row := 4, col := 5 }] ∧
    scenarioA.get_valid_moves scenarioA_black = [{ row := 4, col := 5 }] := by
  refine ⟨fun b piece => ⟨fun h => ?_, fun h => ?_⟩, by decide, by decide⟩
  · unfold Board.get_valid_moves
    rw [if_pos]
    exact List.length_pos.mpr h
  · unfold Board.get_valid_moves
    rw [if_neg]
    simp [h]

/-- C9.  `is_game_over` holds iff some side's total piece count is 0, and
with `red_pieces_left = 0` the winner is "B" (black). -/
theorem game_over_and_winner :
    (∀ b : Board, b.is_game_over = true ↔ (b.black_pieces_left = 0 ∨ b.red_pieces_left = 0)) ∧
    (∀ b : Board, b.red_pieces_left = 0 → b.winner = "B") := by
  constructor
  · intro b
    simp [Board.is_game_over]
  · intro b h
    simp [Board.winner, h]

/-- C9 witness: on a board with no red pieces the game is over and black
wins. -/
theorem game_over_and_winner_witness :
    ((scenarioA.move scenarioA_black { row := 4, col := 5 }).2.1.is_game_over = true ↔
      ((scenarioA.move scenarioA_black { row := 4, col := 5 }).2.1.black_pieces_left = 0 ∨
        (scenarioA.move scenarioA_black { row := 4, col := 5 }).2.1.red_pieces_left = 0)) ∧
    (scenarioA.move scenarioA_black { row := 4, col := 5 }).2.1.winner = "B" :=
  ⟨(game_over_and_winner).1 _, (game_over_and_winner).2 _ (by decide)⟩

/-- `pieces_with_valid_moves` only looks at its colour argument through
`normalize_color`. -/
theorem pieces_with_valid_moves_normalize (b : Board) (c1 c2 : PyColor)
    (h : normalize_color c1 = normalize_color c2) :
    b.pieces_with_valid_moves c1 = b.pieces_with_valid_moves c2 := by
  unfold Board.pieces_with_valid_moves
  rw [h]

/-- C10.  The colour argument of `pieces_with_valid_moves`: the string
"BLACK" behaves as `PIECE_BLACK`, the string "RED" as `PIECE_RED`, and any
argument that is neither a recognised constant nor "BLACK" behaves as
`PIECE_RED`. -/
theorem pieces_with_valid_moves_color_arg : ∀ b : Board,
    (b.pieces_with_valid_moves (PyColor.str "BLACK") = b.pieces_with_valid_moves PIECE_BLACK) ∧
    (b.pieces_with_valid_moves (PyColor.str "RED") = b.pieces_with_valid_moves PIECE_RED) ∧
    ∀ c : PyColor, c ≠ PIECE_BLACK → c ≠ PIECE_RED → c ≠ PyColor.str "BLACK" →
      b.pieces_with_valid_moves c = b.pieces_with_valid_moves PIECE_RED := by
  intro b
  refine ⟨pieces_with_valid_moves_normalize b _ _ (by decide),
          pieces_with_valid_moves_normalize b _ _ (by decide),
          fun c h1 h2 h3 => pieces_with_valid_moves_normalize b _ _ ?_⟩
  have hc : normalize_color c = PIECE_RED := by
    unfold normalize_color
    rw [if_neg, if_neg h3]
    rintro (hh | hh)
    · exact h1 hh
    · exact h2 hh
  rw [hc]
  decide

/-- C10 witness: an unrecognised colour argument on the initial position is
treated as RED. -/
theorem pieces_with_valid_moves_color_arg_witness :
    (Board.init.place_starting_pieces).pieces_with_valid_moves (PyColor.str "GREEN") =
      (Board.init.place_starting_pieces).pieces_with_valid_moves PIECE_RED :=
  (pieces_with_valid_moves_color_arg (Board.init.place_starting_pieces)).2.2
    (PyColor.str "GREEN") (by decide) (by decide) (by decide)

/-- C8.  `AI.result` builds its answer by running `move` and
`switch_player` on deep copies: the caller's board and piece come back from
the call exactly as they went in, and the returned board is
`switch_player (move copy)` — in this embedding mutation is explicit
threading, so the frame part holds definitionally. -/
theorem result_leaves_input_unchanged :
    ∀ (b : Board) (piece : Piece) (destination : Coordinate),
      (AI.result_call b piece destination).1 = b ∧
      (AI.result_call b piece destination).2.1 = piece ∧
      AI.result b piece destination = ((b.move piece destination).2.1).switch_player :=
  fun _ _ _ => ⟨rfl, rfl, rfl⟩

/-- C4 counterexample.  On Scenario A's board with an empty stored
valid-moves set, moving the BLACK piece to the illegal destination (0, 0)
returns `False` — but the stored valid-moves set *has* changed (it now
holds the recomputed legal destinations), so the claim that no Board state
is mutated, including the stored valid-moves set, fails. -/
theorem move_illegal_mutates_valid_moves :
    ({ row := 0, col := 0 } : Coordinate) ∉ scenarioA.get_valid_moves scenarioA_black ∧
    (scenarioA.move scenarioA_black { row := 0, col := 0 }).1 = false ∧
    (scenarioA.move scenarioA_black { row := 0, col := 0 }).2.1.valid_moves ≠
      scenarioA.valid_moves := by
  refine ⟨by decide, by decide, by decide⟩

/-- C4 as amended.  An illegal `move` returns `False` and mutates nothing —
except the stored valid-moves set, which is overwritten with the piece's
recomputed legal destinations (grid, counters, turn and selection are
unchanged, and the piece is not touched either). -/
theorem move_illegal_no_mutation (b : Board) (piece : Piece) (destination : Coordinate)
    (h : destination ∉ b.get_valid_moves piece) :
    (b.move piece destination).1 = false ∧
    (b.move piece destination).2.1 = { b with valid_moves := b.get_valid_moves piece } ∧
    (b.move piece destination).2.2 = piece := by
  rw [move_not_mem b piece destination h]
  exact ⟨rfl, rfl, rfl⟩

/-- C4 witness: the amended statement at Scenario A's board and the illegal
destination (0, 0). -/
theorem move_illegal_no_mutation_witness :
    (scenarioA.move scenarioA_black { row := 0, col := 0 }).1 = false ∧
    (scenarioA.move scenarioA_black { row := 0, col := 0 }).2.1 =
      { scenarioA with valid_moves := scenarioA.get_valid_moves scenarioA_black } ∧
    (scenarioA.move scenarioA_black { row := 0, col := 0 }).2.2 = scenarioA_black :=
  move_illegal_no_mutation scenarioA scenarioA_black { row := 0, col := 0 } (by decide)

/-- A `move` call (legal or not) keeps each side's total equal to regular
plus kings: the early return leaves the counters alone, and a successful
move ends by recomputing both totals as exactly that sum. -/
theorem move_coherent (b : Board) (piece : Piece) (destination : Coordinate) :
    countersCoherent b → countersCoherent (b.move piece destination).2.1 := by
  intro h
  simp only [Board.move]
  split
  · exact h
  · exact ⟨rfl, rfl⟩

/-- `switch_player` does not touch the counters. -/
theorem switch_player_coherent (b : Board) :
    countersCoherent b → countersCoherent b.switch_player := fun h => h

/-- The counter invariant is preserved by any sequence of `move` /
`switch_player` calls. -/
theorem applyOps_coherent (ops : List BoardOp) :
    ∀ b : Board, countersCoherent b → countersCoherent (applyOps b ops) := by
  induction ops with
  | nil => exact fun _ h => h
  | cons op rest ih =>
      intro b h
      cases op with
      | move piece destination => exact ih _ (move_coherent b piece destination h)
      | switch_player => exact ih _ (switch_player_coherent b h)

/-- C5.  After any sequence of `move` and `switch_player` calls from the
initial position, each side's total piece count equals its regular count
plus its king count (in particular after any sequence of successful
moves). -/
theorem counters_sum_invariant : ∀ ops : List BoardOp,
    (applyOps (Board.init.place_starting_pieces) ops).black_pieces_left =
        (applyOps (Board.init.place_starting_pieces) ops).black_regular_left +
          (applyOps (Board.init.place_starting_pieces) ops).black_kings_left ∧
    (applyOps (Board.init.place_starting_pieces) ops).red_pieces_left =
        (applyOps (Board.init.place_starting_pieces) ops).red_regular_left +
          (applyOps (Board.init.place_starting_pieces) ops).red_kings_left :=
  fun ops => applyOps_coherent ops _ ⟨rfl, rfl⟩

theorem get_move_type_adjacent_col (p : Piece) (d : Coordinate)
    (h : get_move_type p d = some "ADJACENT") : (d.col - p.col).natAbs = 1 := by
  simp only [get_move_type] at h
  split at h
  · rename_i hc; exact hc.1
  · split at h
    · exact absurd h (by simp)
    · exact absurd h (by simp)

theorem get_move_type_jump_col (p : Piece) (d : Coordinate)
    (h : get_move_type p d = some "JUMP") : (d.col - p.col).natAbs = 2 := by
  simp only [get_move_type] at h
  split at h
  · exact absurd h (by simp)
  · split at h
    · rename_i hc; exact hc.1
    · exact absurd h (by simp)

theorem is_valid_move_true (b : Board) (p : Piece) (d : Coordinate)
    (h : b.is_valid_move p d = true) :
    get_move_type p d = some "ADJACENT" ∨
      ∃ mp, b.get_piece { row := p.row + Int.fdiv (d.row - p.row) 2,
                          col := p.col + Int.fdiv (d.col - p.col) 2 } = some mp ∧
        get_move_type p d = some "JUMP" ∧ mp.color ≠ p.color := by
  simp only [Board.is_valid_move] at h
  split at h
  · exact absurd h (by simp)
  · split at h
    · left; assumption
    · split at h
      · rename_i mp hmp
        simp only [decide_eq_true_eq] at h
        exact Or.inr ⟨mp, hmp, h.1, h.2⟩
      · exact absurd h (by simp)

theorem jump_directions_col (p : Piece) (dir : Int × Int) (h : dir ∈ jump_directions p) :
    dir.2 = 2 ∨ dir.2 = -2 := by
  simp only [jump_directions] at h
  rcases List.mem_append.mp h with h | h <;> (split at h <;> simp at h) <;>
    rcases h with h | h <;> simp [h]

theorem adjacent_directions_col (p : Piece) (dir : Int × Int) (h : dir ∈ adjacent_directions p) :
    dir.2 = 1 ∨ dir.2 = -1 := by
  simp only [adjacent_directions] at h
  rcases List.mem_append.mp h with h | h <;> (split at h <;> simp at h) <;>
    rcases h with h | h <;> simp [h]

theorem mem_single_jumps_info (b : Board) (p : Piece) (d : Coordinate)
    (h : d ∈ b.get_single_jumps p) :
    b.is_valid_move p d = true ∧ (d.col - p.col).natAbs = 2 := by
  simp only [Board.get_single_jumps] at h
  rw [List.mem_filterMap] at h
  obtain ⟨dir, hdir, hd⟩ := h
  by_cases hv : b.is_valid_move p { row := p.row + dir.1, col := p.col + dir.2 } = true
  · rw [if_pos hv] at hd
    injection hd with hd
    subst hd
    refine ⟨hv, ?_⟩
    rcases jump_directions_col p dir hdir with h2 | h2 <;> simp [h2]
  · rw [if_neg hv] at hd
    exact absurd hd (by simp)

theorem mem_adjacent_info (b : Board) (p : Piece) (d : Coordinate)
    (h : d ∈ b.get_adjacent_moves p) :
    b.is_valid_move p d = true ∧ (d.col - p.col).natAbs = 1 := by
  simp only [Board.get_adjacent_moves] at h
  rw [List.mem_filterMap] at h
  obtain ⟨dir, hdir, hd⟩ := h
  by_cases hv : b.is_valid_move p { row := p.row + dir.1, col := p.col + dir.2 } = true
  · rw [if_pos hv] at hd
    injection hd with hd
    subst hd
    refine ⟨hv, ?_⟩
    rcases adjacent_directions_col p dir hdir with h2 | h2 <;> simp [h2]
  · rw [if_neg hv] at hd
    exact absurd hd (by simp)

theorem mem_valid_moves_jump (b : Board) (p : Piece) (d : Coordinate)
    (hd : d ∈ b.get_valid_moves p) (hjump : get_move_type p d = some "JUMP") :
    ∃ mp, b.get_piece { row := p.row + Int.fdiv (d.row - p.row) 2,
                        col := p.col + Int.fdiv (d.col - p.col) 2 } = some mp ∧
      mp.color ≠ p.color := by
  have hcol2 := get_move_type_jump_col p d hjump
  have hdj : d ∈ b.get_single_jumps p := by
    simp only [Board.get_valid_moves] at hd
    split at hd
    · exact hd
    · have := (mem_adjacent_info b p d hd).2
      omega
  obtain ⟨hv, _⟩ := mem_single_jumps_info b p d hdj
  rcases is_valid_move_true b p d hv with hadj | ⟨mp, hmp, _, hne⟩
  · have := get_move_type_adjacent_col p d hadj
    omega
  · exact ⟨mp, hmp, hne⟩

/-- A successful move of a BLACK non-king piece to row 7: the returned piece
is a king, BLACK's king count went up by one and its regular count down by
one.  A captured middle piece cannot be BLACK (its colour differs from the
mover's), so the capture branch never touches BLACK's counters. -/
theorem promo_black (b : Board) (p : Piece) (d : Coordinate)
    (hc : p.color = PIECE_BLACK) (hk : p.is_king = false) (hrow : d.row = 7)
    (hs : (b.move p d).1 = true) :
    (b.move p d).2.2.is_king = true ∧
    (b.move p d).2.1.black_kings_left = b.black_kings_left + 1 ∧
    (b.move p d).2.1.black_regular_left = b.black_regular_left - 1 := by
  have hd := move_succ_mem b p d hs
  have hking : Piece.king { p with row := d.row, col := d.col } =
      (true, { p with row := d.row, col := d.col, is_king := true }) := by
    simp only [Piece.king]
    rw [if_pos]
    exact ⟨Or.inl ⟨hc, hrow⟩, hk⟩
  simp only [Board.move]
  rw [if_neg (not_not_intro hd)]
  by_cases hj : get_move_type p d = some "JUMP"
  · obtain ⟨mp, hmp, hne⟩ := mem_valid_moves_jump b p d hd hj
    rw [if_pos hj]
    simp only [Board.get_piece] at hmp ⊢
    rw [hc] at hne
    rw [hmp]
    dsimp only
    rw [if_neg hne, hking]
    split
    · split <;> simp [Board.set_board_at, hc]
    · rename_i hfalse
      exact absurd rfl hfalse
  · rw [if_neg hj]
    rw [hking]
    simp [Board.set_board_at, hc]

/-- The RED mirror of `promo_black`.  Here the well-colouring hypothesis
pins the captured middle piece (whose colour differs from RED) to BLACK, so
the capture branch only touches BLACK's counters. -/
theorem promo_red (b : Board) (p : Piece) (d : Coordinate) (hw : b.wellColored)
    (hc : p.color = PIECE_RED) (hk : p.is_king = false) (hrow : d.row = 0)
    (hs : (b.move p d).1 = true) :
    (b.move p d).2.2.is_king = true ∧
    (b.move p d).2.1.red_kings_left = b.red_kings_left + 1 ∧
    (b.move p d).2.1.red_regular_left = b.red_regular_left - 1 := by
  have hd := move_succ_mem b p d hs
  have hking : Piece.king { p with row := d.row, col := d.col } =
      (true, { p with row := d.row, col := d.col, is_king := true }) := by
    simp only [Piece.king]
    rw [if_pos]
    exact ⟨Or.inr ⟨hc, hrow⟩, hk⟩
  simp only [Board.move]
  rw [if_neg (not_not_intro hd)]
  by_cases hj : get_move_type p d = some "JUMP"
  · obtain ⟨mp, hmp, hne⟩ := mem_valid_moves_jump b p d hd hj
    rw [if_pos hj]
    simp only [Board.get_piece] at hmp ⊢
    rw [hc] at hne
    have hblack : mp.color = PIECE_BLACK := by
      rcases hw _ mp hmp with h | h
      · exact h
      · exact absurd h hne
    rw [hmp]
    dsimp only
    rw [if_pos hblack, hking]
    split
    · split
      · rename_i hcol
        simp [hc] at hcol
        exact absurd hcol (by decide)
      · split <;> simp [Board.set_board_at, hc]
    · rename_i hfalse
      exact absurd rfl hfalse
  · rw [if_neg hj]
    rw [hking]
    simp [Board.set_board_at, hc, PIECE_RED, PIECE_BLACK]

/-- C7.  A BLACK non-king piece that `move` relocates to row 7 (with the
call returning true) comes back with `is_king` true, `black_kings_left` up
by exactly 1 and `black_regular_left` down by exactly 1; symmetrically for
a RED non-king piece reaching row 0 (on a board whose pieces all carry the
two real colours). -/
theorem promotion_spec : ∀ (b : Board) (piece : Piece) (destination : Coordinate),
    (piece.color = PIECE_BLACK → piece.is_king = false → destination.row = 7 →
      (b.move piece destination).1 = true →
      (b.move piece destination).2.2.is_king = true ∧
      (b.move piece destination).2.1.black_kings_left = b.black_kings_left + 1 ∧
      (b.move piece destination).2.1.black_regular_left = b.black_regular_left - 1) ∧
    (b.wellColored → piece.color = PIECE_RED → piece.is_king = false → destination.row = 0 →
      (b.move piece destination).1 = true →
      (b.move piece destination).2.2.is_king = true ∧
      (b.move piece destination).2.1.red_kings_left = b.red_kings_left + 1 ∧
      (b.move piece destination).2.1.red_regular_left = b.red_regular_left - 1) :=
  fun b piece destination =>
    ⟨fun hc hk hrow hs => promo_black b piece destination hc hk hrow hs,
     fun hw hc hk hrow hs => promo_red b piece destination hw hc hk hrow hs⟩

/-- C7 witness: Scenario C — a BLACK piece at (6, 1) moved to the empty
(7, 0) is promoted and the king counter goes up by 1. -/
theorem promotion_spec_witness :
    (scenarioC.move scenarioC_black { row := 7, col := 0 }).2.2.is_king = true ∧
    (scenarioC.move scenarioC_black { row := 7, col := 0 }).2.1.black_kings_left =
      scenarioC.black_kings_left + 1 ∧
    (scenarioC.move scenarioC_black { row := 7, col := 0 }).2.1.black_regular_left =
      scenarioC.black_regular_left - 1 :=
  (promotion_spec scenarioC scenarioC_black { row := 7, col := 0 }).1
    (by decide) (by decide) (by decide) (by decide)

/-- C6.  A legal JUMP move removes exactly one piece from the opponent's
total count and leaves the mover's total unchanged (promotion only trades a
regular piece for a king on the mover's side), given the counter-sum
invariant on the starting board.  For a RED mover the well-colouring
hypothesis pins the captured piece to BLACK. -/
theorem jump_capture_counts (b : Board) (piece : Piece) (destination : Coordinate)
    (hB : b.black_pieces_left = b.black_regular_left + b.black_kings_left)
    (hR : b.red_pieces_left = b.red_regular_left + b.red_kings_left)
    (hjump : get_move_type piece destination = some "JUMP")
    (hs : (b.move piece destination).1 = true) :
    (piece.color = PIECE_BLACK →
      (b.move piece destination).2.1.red_pieces_left = b.red_pieces_left - 1 ∧
      (b.move piece destination).2.1.black_pieces_left = b.black_pieces_left) ∧
    (b.wellColored → piece.color = PIECE_RED →
      (b.move piece destination).2.1.black_pieces_left = b.black_pieces_left - 1 ∧
      (b.move piece destination).2.1.red_pieces_left = b.red_pieces_left) := by
  have hd := move_succ_mem b piece destination hs
  obtain ⟨mp, hmp, hne⟩ := mem_valid_moves_jump b piece destination hd hjump
  simp only [Board.get_piece] at hmp
  constructor
  · intro hc
    rw [hc] at hne
    simp only [Board.move]
    rw [if_neg (not_not_intro hd), if_pos hjump]
    simp only [Board.get_piece]
    rw [hmp]
    dsimp only
    rw [if_neg hne]
    repeat' split
    all_goals simp_all [Board.set_board_at]
    all_goals omega
  · intro hw hc
    rw [hc] at hne
    have hblack : mp.color = PIECE_BLACK := by
      rcases hw _ mp hmp with h | h
      · exact h
      · exact absurd h hne
    simp only [Board.move]
    rw [if_neg (not_not_intro hd), if_pos hjump]
    simp only [Board.get_piece]
    rw [hmp]
    dsimp only
    rw [if_pos hblack]
    repeat' split
    all_goals simp_all [Board.set_board_at]
    all_goals omega

/-- C6 witness: the mandated jump of Scenario A — BLACK jumps from (2, 3)
over the RED piece at (3, 4): RED's total drops from 1 to 0, BLACK's total
stays 1. -/
theorem jump_capture_counts_witness :
    (scenarioA.move scenarioA_black { row := 4, col := 5 }).2.1.red_pieces_left =
      scenarioA.red_pieces_left - 1 ∧
    (scenarioA.move scenarioA_black { row := 4, col := 5 }).2.1.black_pieces_left =
      scenarioA.black_pieces_left :=
  (jump_capture_counts scenarioA scenarioA_black { row := 4, col := 5 }
    (by decide) (by decide) (by decide) (by decide)).1 (by decide)

/-- Membership in the first scan of `pieces_with_valid_moves`: the scanned
cell holds the piece, which has a jump available and the requested
colour. -/
theorem scan_jump_mem (b : Board) (nc : PyColor) (p : Piece) (cell : Coordinate) :
    (match b.get_piece cell with
      | some piece =>
          if (b.get_single_jumps piece).length > 0 ∧ piece.color = nc then some piece
          else none
      | none => none) = some p ↔
    (b.get_piece cell = some p ∧ (b.get_single_jumps p).length > 0 ∧ p.color = nc) := by
  cases hq : b.get_piece cell with
  | none => simp
  | some q =>
      constructor
      · intro h
        dsimp only at h
        split_ifs at h with hcond
        injection h with h
        subst h
        exact ⟨rfl, hcond.1, hcond.2⟩
      · rintro ⟨hqp, hlen, hcol⟩
        injection hqp with hqp
        subst hqp
        dsimp only
        rw [if_pos ⟨hlen, hcol⟩]

/-- Membership in the fallback scan of `pieces_with_valid_moves`. -/
theorem scan_adjacent_mem (b : Board) (nc : PyColor) (p : Piece) (cell : Coordinate) :
    (match b.get_piece cell with
      | some piece =>
          if (b.get_adjacent_moves piece).length > 0 ∧ piece.color = nc then some piece
          else none
      | none => none) = some p ↔
    (b.get_piece cell = some p ∧ (b.get_adjacent_moves p).length > 0 ∧ p.color = nc) := by
  cases hq : b.get_piece cell with
  | none => simp
  | some q =>
      constructor
      · intro h
        dsimp only at h
        split_ifs at h with hcond
        injection h with h
        subst h
        exact ⟨rfl, hcond.1, hcond.2⟩
      · rintro ⟨hqp, hlen, hcol⟩
        injection hqp with hqp
        subst hqp
        dsimp only
        rw [if_pos ⟨hlen, hcol⟩]

/-- `colorHasJump` unfolded to an existential over the scanned cells. -/
theorem colorHasJump_iff (b : Board) (nc : PyColor) :
    b.colorHasJump nc = true ↔
      ∃ cell ∈ boardCells, ∃ q, b.get_piece cell = some q ∧
        (b.get_single_jumps q).length > 0 ∧ q.color = nc := by
  unfold Board.colorHasJump
  rw [List.any_eq_true]
  constructor
  · rintro ⟨cell, hcell, h⟩
    refine ⟨cell, hcell, ?_⟩
    cases hq : b.get_piece cell with
    | none => rw [hq] at h; exact absurd h (by simp)
    | some q =>
        rw [hq] at h
        dsimp only at h
        rw [decide_eq_true_eq] at h
        exact ⟨q, rfl, h.1, h.2⟩
  · rintro ⟨cell, hcell, q, hq, hlen, hcol⟩
    refine ⟨cell, hcell, ?_⟩
    rw [hq]
    dsimp only
    rw [decide_eq_true_eq]
    exact ⟨hlen, hcol⟩

/-- C2.  If any piece of the (normalised) colour has a single jump
available, `pieces_with_valid_moves` returns exactly the pieces of that
colour with a jump — never a piece that can only move adjacently; only when
no piece of that colour can jump does it return the pieces of that colour
with an adjacent move available. -/
theorem pwvm_spec : ∀ (b : Board) (color : PyColor) (p : Piece),
    p ∈ b.pieces_with_valid_moves color ↔
      ((b.colorHasJump (normalize_color color) = true ∧ b.hasPiece p ∧
          p.color = normalize_color color ∧ (b.get_single_jumps p).length > 0) ∨
       (b.colorHasJump (normalize_color color) = false ∧ b.hasPiece p ∧
          p.color = normalize_color color ∧ (b.get_adjacent_moves p).length > 0)) := by
  intro b color p
  unfold Board.pieces_with_valid_moves
  simp only [Board.hasPiece]
  set nc := normalize_color color with hnc
  have hjump_iff := colorHasJump_iff b nc
  split
  · rename_i hlen
    have hnojump : b.colorHasJump nc = false := by
      rw [Bool.eq_false_iff]
      intro hany
      obtain ⟨cell, hcell, q, hq, hl, hc⟩ := hjump_iff.mp hany
      have hmem : q ∈ boardCells.filterMap fun cell =>
          (match b.get_piece cell with
            | some piece =>
                if (b.get_single_jumps piece).length > 0 ∧ piece.color = nc then some piece
                else none
            | none => none) :=
        List.mem_filterMap.mpr ⟨cell, hcell, (scan_jump_mem b nc q cell).mpr ⟨hq, hl, hc⟩⟩
      rw [List.length_eq_zero] at hlen
      rw [hlen] at hmem
      exact absurd hmem (List.not_mem_nil q)
    rw [List.mem_filterMap]
    constructor
    · rintro ⟨cell, hcell, hmem⟩
      obtain ⟨hq, hl, hc⟩ := (scan_adjacent_mem b nc p cell).mp hmem
      exact Or.inr ⟨hnojump, ⟨cell, hcell, hq⟩, hc, hl⟩
    · rintro (⟨hjump, _, _, _⟩ | ⟨_, ⟨cell, hcell, hq⟩, hc, hl⟩)
      · rw [hnojump] at hjump
        exact absurd hjump (by simp)
      · exact ⟨cell, hcell, (scan_adjacent_mem b nc p cell).mpr ⟨hq, hl, hc⟩⟩
  · rename_i hlen
    have hyes : b.colorHasJump nc = true := by
      have hne : (boardCells.filterMap fun cell =>
          (match b.get_piece cell with
            | some piece =>
                if (b.get_single_jumps piece).length > 0 ∧ piece.color = nc then some piece
                else none
            | none => none)) ≠ [] := by
        intro hh
        exact hlen (by rw [hh]; rfl)
      obtain ⟨q, hqmem⟩ := List.exists_mem_of_ne_nil _ hne
      obtain ⟨cell, hcell, hmm⟩ := List.mem_filterMap.mp hqmem
      obtain ⟨hq, hl, hc⟩ := (scan_jump_mem b nc q cell).mp hmm
      exact hjump_iff.mpr ⟨cell, hcell, q, hq, hl, hc⟩
    rw [List.mem_filterMap]
    constructor
    · rintro ⟨cell, hcell, hmem⟩
      obtain ⟨hq, hl, hc⟩ := (scan_jump_mem b nc p cell).mp hmem
      exact Or.inl ⟨hyes, ⟨cell, hcell, hq⟩, hc, hl⟩
    · rintro (⟨_, ⟨cell, hcell, hq⟩, hc, hl⟩ | ⟨hno, _, _, _⟩)
      · exact ⟨cell, hcell, (scan_jump_mem b nc p cell).mpr ⟨hq, hl, hc⟩⟩
      · rw [hyes] at hno
        exact absurd hno (by simp)

/-- A fold of `min` only goes down from its start value. -/
theorem foldl_min_le {α : Type} (f : α → EInt) : ∀ (l : List α) (M : EInt),
    List.foldl (fun a x => min a (f x)) M l ≤ M := by
  intro l
  induction l with
  | nil => intro M; exact le_refl M
  | cons x xs ih => intro M; exact le_trans (ih (min M (f x))) (min_le_left _ _)

/-- A fold of `max` only goes up from its start value. -/
theorem le_foldl_max {α : Type} (f : α → EInt) : ∀ (l : List α) (M : EInt),
    M ≤ List.foldl (fun a x => max a (f x)) M l := by
  intro l
  induction l with
  | nil => intro M; exact le_refl M
  | cons x xs ih => intro M; exact le_trans (le_max_left _ _) (ih (max M (f x)))

/-- Collapsing a nested minimum when the new element is below the old. -/
theorem min_absorb (a b x : EInt) (h : x ≤ b) : min (min a b) x = min a x :=
  le_antisymm
    (le_min (le_trans (min_le_left _ _) (min_le_left a b)) (min_le_right _ _))
    (le_min (le_min (min_le_left _ _) (le_trans (min_le_right _ _) h)) (min_le_right _ _))

/-- Collapsing a nested maximum when the new element is above the old. -/
theorem max_absorb (a b x : EInt) (h : b ≤ x) : max (max a b) x = max a x :=
  le_antisymm
    (max_le (max_le (le_max_left _ _) (le_trans h (le_max_right _ _))) (le_max_right _ _))
    (max_le (le_trans (le_max_left a b) (le_max_left _ _)) (le_max_right _ _))

/-- The inner loop of `min_value` preserves `InvMin`: starting from running
minimum `V` (with beta clipped as `min beta0 V`) and true-minimum-so-far
`M`, it ends in a state related the same way to the fold of the scanned
children's unpruned values.  Children reached after a cutoff re-enter with a
closed window and need no spec: they can only keep the state in the
failed-low regime. -/
theorem min_moves_spec (b : Board) (p : Piece) (alpha beta0 : EInt) (d : Nat)
    (hab : alpha < beta0)
    (hch : ∀ (mv : Coordinate) (bet : EInt), alpha < bet →
      EHL (AI.max_value (AI.result b p mv) alpha bet d)
          (AI.plain_max (AI.result b p mv) d) alpha bet) :
    ∀ (ms : List Coordinate) (V M : EInt), InvMin alpha beta0 V M →
      (AI.min_moves b p ms alpha (min beta0 V) d V).1 ≤ V ∧
      (AI.min_moves b p ms alpha (min beta0 V) d V).2 =
        min beta0 (AI.min_moves b p ms alpha (min beta0 V) d V).1 ∧
      InvMin alpha beta0 (AI.min_moves b p ms alpha (min beta0 V) d V).1
        (List.foldl (fun a mv => min a (AI.plain_max (AI.result b p mv) d)) M ms) := by
  intro ms
  induction ms with
  | nil =>
      intro V M hInv
      simp only [AI.min_moves]
      exact ⟨le_refl V, trivial, hInv⟩
  | cons mv rest ih =>
      intro V M hInv
      simp only [AI.min_moves, List.foldl_cons]
      set v := AI.max_value (AI.result b p mv) alpha (min beta0 V) d with hv
      set m := AI.plain_max (AI.result b p mv) d with hm
      have habs : min (min beta0 V) (min V v) = min beta0 (min V v) :=
        min_absorb beta0 V (min V v) (min_le_left V v)
      rw [habs]
      by_cases hbr : min beta0 (min V v) ≤ alpha
      · rw [if_pos hbr]
        have hV2a : min V v ≤ alpha := by
          rcases min_le_iff.mp hbr with h | h
          · exact absurd hab (not_lt.mpr h)
          · exact h
        refine ⟨min_le_left V v, rfl, ?_, ?_⟩
        · intro h
          exact absurd hV2a (not_le.mpr h)
        · intro _
          refine le_trans (foldl_min_le _ rest (min M m)) ?_
          rcases le_or_lt V alpha with hVa | hVa
          · exact le_trans (min_le_left M m) (hInv.2 hVa)
          · have hva : v ≤ alpha := by
              rcases min_le_iff.mp hV2a with h | h
              · exact absurd h (not_le.mpr hVa)
              · exact h
            have hwin : alpha < min beta0 V := lt_min hab hVa
            have hL := (hch mv (min beta0 V) hwin).2.1 hva
            exact le_trans (min_le_right M m) hL
      · rw [if_neg hbr]
        have halpha2 : alpha < min beta0 (min V v) := not_le.mp hbr
        have hV2 : alpha < min V v := (lt_min_iff.mp halpha2).2
        have hVa : alpha < V := lt_of_lt_of_le hV2 (min_le_left V v)
        obtain ⟨hM1, hM2⟩ := hInv.1 hVa
        have hwin : alpha < min beta0 V := lt_min hab hVa
        have hEHL := hch mv (min beta0 V) hwin
        have hnew : InvMin alpha beta0 (min V v) (min M m) := by
          refine ⟨fun _ => ?_, fun h => absurd h (not_le.mpr hV2)⟩
          rcases lt_or_le v (min beta0 V) with hv1 | hv1
          · have hv2 : alpha < v := lt_of_lt_of_le hV2 (min_le_right V v)
            have hE : v = m := hEHL.1 hv2 hv1
            constructor
            · refine le_min ?_ ?_
              · exact le_trans (min_le_min (le_refl beta0) (min_le_left V v)) hM1
              · rw [← hE]
                exact le_trans (min_le_right _ _) (min_le_right V v)
            · refine le_min ?_ ?_
              · exact le_trans (min_le_min (le_refl beta0) (min_le_left M m)) hM2
              · rw [hE]
                exact le_trans (min_le_right _ _) (min_le_right M m)
          · have hH : min beta0 V ≤ m := hEHL.2.2 hv1
            constructor
            · refine le_min ?_ ?_
              · exact le_trans (min_le_min (le_refl beta0) (min_le_left V v)) hM1
              · exact le_trans (min_le_min (le_refl beta0) (min_le_left V v)) hH
            · refine le_min ?_ ?_
              · exact le_trans (min_le_min (le_refl beta0) (min_le_left M m)) hM2
              · rcases le_total beta0 V with hbV | hbV
                · have hbv : beta0 ≤ v := by
                    rw [min_eq_left hbV] at hv1
                    exact hv1
                  exact le_trans (min_le_left _ _) hbv
                · have hVv : V ≤ v := by
                    rw [min_eq_right hbV] at hv1
                    exact hv1
                  exact le_trans
                    (le_trans (min_le_min (le_refl beta0) (min_le_left M m)) hM2) hVv
        have hres := ih (min V v) (min M m) hnew
        exact ⟨le_trans hres.1 (min_le_left V v), hres.2.1, hres.2.2⟩

/-- The outer (per-piece) loop of `min_value` preserves `InvMin`; the
`break` of the inner loop does not leave the outer loop, exactly as in the
source. -/
theorem min_pieces_spec (b : Board) (alpha beta0 : EInt) (d : Nat)
    (hab : alpha < beta0)
    (hch : ∀ (p : Piece) (mv : Coordinate) (bet : EInt), alpha < bet →
      EHL (AI.max_value (AI.result b p mv) alpha bet d)
          (AI.plain_max (AI.result b p mv) d) alpha bet) :
    ∀ (ps : List Piece) (V M : EInt), InvMin alpha beta0 V M →
      (AI.min_pieces b ps alpha (min beta0 V) d V).1 ≤ V ∧
      (AI.min_pieces b ps alpha (min beta0 V) d V).2 =
        min beta0 (AI.min_pieces b ps alpha (min beta0 V) d V).1 ∧
      InvMin alpha beta0 (AI.min_pieces b ps alpha (min beta0 V) d V).1
        (List.foldl (fun acc p => List.foldl
          (fun a mv => min a (AI.plain_max (AI.result b p mv) d)) acc (AI.moves b p)) M ps) := by
  intro ps
  induction ps with
  | nil =>
      intro V M hInv
      simp only [AI.min_pieces]
      exact ⟨le_refl V, trivial, hInv⟩
  | cons p rest ih =>
      intro V M hInv
      simp only [AI.min_pieces, List.foldl_cons]
      have hmoves := min_moves_spec b p alpha beta0 d hab
        (fun mv bet hb => hch p mv bet hb) (AI.moves b p) V M hInv
      rw [hmoves.2.1]
      have hrest := ih (AI.min_moves b p (AI.moves b p) alpha (min beta0 V) d V).1
        (List.foldl (fun a mv => min a (AI.plain_max (AI.result b p mv) d)) M (AI.moves b p))
        hmoves.2.2
      exact ⟨le_trans hrest.1 hmoves.1, hrest.2.1, hrest.2.2⟩

/-- Dual of `min_moves_spec` for `max_value`'s inner loop. -/
theorem max_moves_spec (b : Board) (p : Piece) (alpha0 beta0 : EInt) (d : Nat)
    (hab : alpha0 < beta0)
    (hch : ∀ (mv : Coordinate) (a : EInt), a < beta0 →
      EHL (AI.min_value (AI.result b p mv) a beta0 d)
          (AI.plain_min (AI.result b p mv) d) a beta0) :
    ∀ (ms : List Coordinate) (A M : EInt), InvMax alpha0 beta0 A M →
      A ≤ (AI.max_moves b p ms (max alpha0 A) beta0 d A).1 ∧
      (AI.max_moves b p ms (max alpha0 A) beta0 d A).2 =
        max alpha0 (AI.max_moves b p ms (max alpha0 A) beta0 d A).1 ∧
      InvMax alpha0 beta0 (AI.max_moves b p ms (max alpha0 A) beta0 d A).1
        (List.foldl (fun a mv => max a (AI.plain_min (AI.result b p mv) d)) M ms) := by
  intro ms
  induction ms with
  | nil =>
      intro A M hInv
      simp only [AI.max_moves]
      exact ⟨le_refl A, trivial, hInv⟩
  | cons mv rest ih =>
      intro A M hInv
      simp only [AI.max_moves, List.foldl_cons]
      set v := AI.min_value (AI.result b p mv) (max alpha0 A) beta0 d with hv
      set m := AI.plain_min (AI.result b p mv) d with hm
      have habs : max (max alpha0 A) (max A v) = max alpha0 (max A v) :=
        max_absorb alpha0 A (max A v) (le_max_left A v)
      rw [habs]
      by_cases hbr : beta0 ≤ max alpha0 (max A v)
      · rw [if_pos hbr]
        have hA2b : beta0 ≤ max A v := by
          rcases le_max_iff.mp hbr with h | h
          · exact absurd hab (not_lt.mpr h)
          · exact h
        refine ⟨le_max_left A v, rfl, ?_, ?_⟩
        · intro h
          exact absurd hA2b (not_le.mpr h)
        · intro _
          refine le_trans ?_ (le_foldl_max _ rest (max M m))
          rcases le_or_lt beta0 A with hAb | hAb
          · exact le_trans (hInv.2 hAb) (le_max_left M m)
          · have hvb : beta0 ≤ v := by
              rcases le_max_iff.mp hA2b with h | h
              · exact absurd h (not_le.mpr hAb)
              · exact h
            have hwin : max alpha0 A < beta0 := max_lt hab hAb
            have hH := (hch mv (max alpha0 A) hwin).2.2 hvb
            exact le_trans hH (le_max_right M m)
      · rw [if_neg hbr]
        have hbeta2 : max alpha0 (max A v) < beta0 := not_le.mp hbr
        have hA2 : max A v < beta0 := lt_of_le_of_lt (le_max_right alpha0 _) hbeta2
        have hAb : A < beta0 := lt_of_le_of_lt (le_max_left A v) hA2
        obtain ⟨hM1, hM2⟩ := hInv.1 hAb
        have hwin : max alpha0 A < beta0 := max_lt hab hAb
        have hEHL := hch mv (max alpha0 A) hwin
        have hnew : InvMax alpha0 beta0 (max A v) (max M m) := by
          refine ⟨fun _ => ?_, fun h => absurd h (not_le.mpr hA2)⟩
          rcases lt_or_le (max alpha0 A) v with hv1 | hv1
          · have hv2 : v < beta0 := lt_of_le_of_lt (le_max_right A v) hA2
            have hE : v = m := hEHL.1 hv1 hv2
            constructor
            · refine max_le ?_ ?_
              · exact le_trans hM1 (max_le_max (le_refl alpha0) (le_max_left A v))
              · rw [← hE]
                exact le_trans (le_max_right A v) (le_max_right _ _)
            · refine max_le ?_ ?_
              · exact le_trans hM2 (max_le_max (le_refl alpha0) (le_max_left M m))
              · rw [hE]
                exact le_trans (le_max_right M m) (le_max_right _ _)
          · have hL : m ≤ max alpha0 A := hEHL.2.1 hv1
            constructor
            · refine max_le ?_ ?_
              · exact le_trans hM1 (max_le_max (le_refl alpha0) (le_max_left A v))
              · exact le_trans hL (max_le_max (le_refl alpha0) (le_max_left A v))
            · refine max_le ?_ ?_
              · exact le_trans hM2 (max_le_max (le_refl alpha0) (le_max_left M m))
              · rcases le_total A alpha0 with hAa | hAa
                · have hva : v ≤ alpha0 := by
                    rw [max_eq_left hAa] at hv1
                    exact hv1
                  exact le_trans hva (le_max_left _ _)
                · have hvA : v ≤ A := by
                    rw [max_eq_right hAa] at hv1
                    exact hv1
                  exact le_trans hvA
                    (le_trans hM2 (max_le_max (le_refl alpha0) (le_max_left M m)))
        have hres := ih (max A v) (max M m) hnew
        exact ⟨le_trans (le_max_left A v) hres.1, hres.2.1, hres.2.2⟩

/-- Dual of `min_pieces_spec` for `max_value`'s outer loop. -/
theorem max_pieces_spec (b : Board) (alpha0 beta0 : EInt) (d : Nat)
    (hab : alpha0 < beta0)
    (hch : ∀ (p : Piece) (mv : Coordinate) (a : EInt), a < beta0 →
      EHL (AI.min_value (AI.result b p mv) a beta0 d)
          (AI.plain_min (AI.result b p mv) d) a beta0) :
    ∀ (ps : List Piece) (A M : EInt), InvMax alpha0 beta0 A M →
      A ≤ (AI.max_pieces b ps (max alpha0 A) beta0 d A).1 ∧
      (AI.max_pieces b ps (max alpha0 A) beta0 d A).2 =
        max alpha0 (AI.max_pieces b ps (max alpha0 A) beta0 d A).1 ∧
      InvMax alpha0 beta0 (AI.max_pieces b ps (max alpha0 A) beta0 d A).1
        (List.foldl (fun acc p => List.foldl
          (fun a mv => max a (AI.plain_min (AI.result b p mv) d)) acc (AI.moves b p)) M ps) := by
  intro ps
  induction ps with
  | nil =>
      intro A M hInv
      simp only [AI.max_pieces]
      exact ⟨le_refl A, trivial, hInv⟩
  | cons p rest ih =>
      intro A M hInv
      simp only [AI.max_pieces, List.foldl_cons]
      have hmoves := max_moves_spec b p alpha0 beta0 d hab
        (fun mv a ha => hch p mv a ha) (AI.moves b p) A M hInv
      rw [hmoves.2.1]
      have hrest := ih (AI.max_moves b p (AI.moves b p) (max alpha0 A) beta0 d A).1
        (List.foldl (fun a mv => max a (AI.plain_min (AI.result b p mv) d)) M (AI.moves b p))
        hmoves.2.2
      exact ⟨le_trans hmoves.1 hrest.1, hrest.2.1, hrest.2.2⟩

/-- `plain_min_list` is a left fold of `min`. -/
theorem plain_min_list_foldl : ∀ (cs : List Board) (d : Nat) (acc : EInt),
    AI.plain_min_list cs d acc = List.foldl (fun a c => min a (AI.plain_max c d)) acc cs := by
  intro cs
  induction cs with
  | nil => intro d acc; simp [AI.plain_min_list]
  | cons c rest ih => intro d acc; simp only [AI.plain_min_list, List.foldl_cons]; exact ih d _

/-- `plain_max_list` is a left fold of `max`. -/
theorem plain_max_list_foldl : ∀ (cs : List Board) (d : Nat) (acc : EInt),
    AI.plain_max_list cs d acc = List.foldl (fun a c => max a (AI.plain_min c d)) acc cs := by
  intro cs
  induction cs with
  | nil => intro d acc; simp [AI.plain_max_list]
  | cons c rest ih => intro d acc; simp only [AI.plain_max_list, List.foldl_cons]; exact ih d _

/-- A fold over a flattened list is the nested fold. -/
theorem foldl_flatMap {α β γ : Type} (g : α → List β) (f : γ → β → γ) :
    ∀ (l : List α) (init : γ),
      List.foldl f init (l.flatMap g) =
        List.foldl (fun acc x => List.foldl f acc (g x)) init l := by
  intro l
  induction l with
  | nil => intro init; rfl
  | cons x xs ih =>
      intro init
      rw [List.flatMap_cons, List.foldl_append, List.foldl_cons]
      exact ih _

/-- The unpruned minimum over all children as the nested per-piece fold. -/
theorem plain_min_nested (b : Board) (d : Nat) (M : EInt) :
    AI.plain_min_list (AI.allChildren b) d M =
      List.foldl (fun acc p => List.foldl
        (fun a mv => min a (AI.plain_max (AI.result b p mv) d)) acc (AI.moves b p)) M
        (b.pieces_with_valid_moves (.str (AI.player b))) := by
  rw [plain_min_list_foldl]
  unfold AI.allChildren
  rw [foldl_flatMap]
  have hfun : (fun (acc : EInt) (p : Piece) =>
      List.foldl (fun a c => min a (AI.plain_max c d)) acc ((AI.moves b p).map (AI.result b p))) =
      fun (acc : EInt) (p : Piece) => List.foldl
        (fun a mv => min a (AI.plain_max (AI.result b p mv) d)) acc (AI.moves b p) := by
    funext acc p
    rw [List.foldl_map]
  rw [hfun]

/-- The unpruned maximum over all children as the nested per-piece fold. -/
theorem plain_max_nested (b : Board) (d : Nat) (M : EInt) :
    AI.plain_max_list (AI.allChildren b) d M =
      List.foldl (fun acc p => List.foldl
        (fun a mv => max a (AI.plain_min (AI.result b p mv) d)) acc (AI.moves b p)) M
        (b.pieces_with_valid_moves (.str (AI.player b))) := by
  rw [plain_max_list_foldl]
  unfold AI.allChildren
  rw [foldl_flatMap]
  have hfun : (fun (acc : EInt) (p : Piece) =>
      List.foldl (fun a c => max a (AI.plain_min c d)) acc ((AI.moves b p).map (AI.result b p))) =
      fun (acc : EInt) (p : Piece) => List.foldl
        (fun a mv => max a (AI.plain_min (AI.result b p mv) d)) acc (AI.moves b p) := by
    funext acc p
    rw [List.foldl_map]
  rw [hfun]

/-- An exact value satisfies the fail-soft specification. -/
theorem EHL_of_eq (v m alpha beta : EInt) (h : v = m) : EHL v m alpha beta := by
  subst h
  exact ⟨fun _ _ => rfl, fun hh => hh, fun hh => hh⟩

/-- Fail-soft correctness of the alpha-beta recursion at every depth and
every open window: inside the window the pruned value is exact, a fail-low
bounds the true value by alpha, a fail-high bounds it by beta. -/
theorem ab_EHL : ∀ d : Nat,
    (∀ (b : Board) (alpha beta : EInt), alpha < beta →
        EHL (AI.max_value b alpha beta d) (AI.plain_max b d) alpha beta) ∧
    (∀ (b : Board) (alpha beta : EInt), alpha < beta →
        EHL (AI.min_value b alpha beta d) (AI.plain_min b d) alpha beta) := by
  intro d
  induction d with
  | zero =>
      constructor
      · intro b alpha beta _
        refine EHL_of_eq _ _ _ _ ?_
        simp [AI.max_value, AI.plain_max]
      · intro b alpha beta _
        refine EHL_of_eq _ _ _ _ ?_
        simp [AI.min_value, AI.plain_min]
  | succ n ihn =>
      constructor
      · intro b alpha beta hab
        by_cases hterm : AI.terminal b = true ∨ n + 1 = 0
        · refine EHL_of_eq _ _ _ _ ?_
          simp only [AI.max_value, AI.plain_max, if_pos hterm]
        · have hspec := max_pieces_spec b alpha beta n hab
            (fun p mv a ha => (ihn.2 (AI.result b p mv) a beta ha))
            (b.pieces_with_valid_moves (.str (AI.player b))) ⊥ ⊥
            ⟨fun _ => ⟨bot_le, bot_le⟩, fun h => h⟩
          rw [max_eq_left bot_le] at hspec
          have hval : AI.max_value b alpha beta (n + 1) =
              (AI.max_pieces b (b.pieces_with_valid_moves (.str (AI.player b)))
                alpha beta n ⊥).1 := by
            simp only [AI.max_value, if_neg hterm, Nat.add_sub_cancel]
          have hplain : AI.plain_max b (n + 1) =
              List.foldl (fun acc p => List.foldl
                (fun a mv => max a (AI.plain_min (AI.result b p mv) n)) acc (AI.moves b p))
                ⊥ (b.pieces_with_valid_moves (.str (AI.player b))) := by
            simp only [AI.plain_max, if_neg hterm, Nat.add_sub_cancel]
            exact plain_max_nested b n ⊥
          rw [hval, hplain]
          obtain ⟨hInv1, hInv2⟩ := hspec.2.2
          set A := (AI.max_pieces b (b.pieces_with_valid_moves (.str (AI.player b)))
            alpha beta n ⊥).1
          set M := List.foldl (fun acc p => List.foldl
            (fun a mv => max a (AI.plain_min (AI.result b p mv) n)) acc (AI.moves b p))
            ⊥ (b.pieces_with_valid_moves (.str (AI.player b)))
          refine ⟨?_, ?_, ?_⟩
          · intro h1 h2
            obtain ⟨hm1, hm2⟩ := hInv1 h2
            refine le_antisymm ?_ ?_
            · rcases le_max_iff.mp hm2 with h | h
              · exact absurd h (not_le.mpr h1)
              · exact h
            · rcases le_max_iff.mp hm1 with h | h
              · exact le_trans h (le_of_lt h1)
              · exact h
          · intro h1
            obtain ⟨hm1, _⟩ := hInv1 (lt_of_le_of_lt h1 hab)
            rw [max_eq_left h1] at hm1
            exact hm1
          · exact hInv2
      · intro b alpha beta hab
        by_cases hterm : AI.terminal b = true ∨ n + 1 = 0
        · refine EHL_of_eq _ _ _ _ ?_
          simp only [AI.min_value, AI.plain_min, if_pos hterm]
        · have hspec := min_pieces_spec b alpha beta n hab
            (fun p mv bet hb => (ihn.1 (AI.result b p mv) alpha bet hb))
            (b.pieces_with_valid_moves (.str (AI.player b))) ⊤ ⊤
            ⟨fun _ => ⟨le_top, le_top⟩, fun h => h⟩
          rw [min_eq_left le_top] at hspec
          have hval : AI.min_value b alpha beta (n + 1) =
              (AI.min_pieces b (b.pieces_with_valid_moves (.str (AI.player b)))
                alpha beta n ⊤).1 := by
            simp only [AI.min_value, if_neg hterm, Nat.add_sub_cancel]
          have hplain : AI.plain_min b (n + 1) =
              List.foldl (fun acc p => List.foldl
                (fun a mv => min a (AI.plain_max (AI.result b p mv) n)) acc (AI.moves b p))
                ⊤ (b.pieces_with_valid_moves (.str (AI.player b))) := by
            simp only [AI.plain_min, if_neg hterm, Nat.add_sub_cancel]
            exact plain_min_nested b n ⊤
          rw [hval, hplain]
          obtain ⟨hInv1, hInv2⟩ := hspec.2.2
          set V := (AI.min_pieces b (b.pieces_with_valid_moves (.str (AI.player b)))
            alpha beta n ⊤).1
          set M := List.foldl (fun acc p => List.foldl
            (fun a mv => min a (AI.plain_max (AI.result b p mv) n)) acc (AI.moves b p))
            ⊤ (b.pieces_with_valid_moves (.str (AI.player b)))
          refine ⟨?_, ?_, ?_⟩
          · intro h1 h2
            obtain ⟨hm1, hm2⟩ := hInv1 h1
            refine le_antisymm ?_ ?_
            · rw [min_eq_right (le_of_lt h2)] at hm1
              exact hm1
            · rcases min_le_iff.mp hm2 with h | h
              · exact absurd h (not_le.mpr h2)
              · exact h
          · exact hInv2
          · intro h1
            obtain ⟨hm1, _⟩ := hInv1 (lt_of_lt_of_le hab h1)
            rw [min_eq_left h1] at hm1
            exact hm1

/-- `root_black` as a single fold over the flattened candidate pairs. -/
theorem root_black_eq (b : Board) (depth : Nat) :
    AI.root_black b depth =
      List.foldl (AI.root_black_step b depth) (⊥, none, ⊥) (AI.rootPairs b) := by
  unfold AI.root_black AI.rootPairs
  rw [foldl_flatMap]
  congr 1
  funext acc p
  rw [List.foldl_map]
  rfl

/-- `root_red` as a single fold over the flattened candidate pairs. -/
theorem root_red_eq (b : Board) (depth : Nat) :
    AI.root_red b depth =
      List.foldl (AI.root_red_step b depth) (⊤, none, ⊤) (AI.rootPairs b) := by
  unfold AI.root_red AI.rootPairs
  rw [foldl_flatMap]
  congr 1
  funext acc p
  rw [List.foldl_map]
  rfl

/-- The child boards are the `result`s of the flattened candidate pairs. -/
theorem allChildren_eq_pairs (b : Board) :
    AI.allChildren b = (AI.rootPairs b).map fun pm => AI.result b pm.1 pm.2 := by
  unfold AI.allChildren AI.rootPairs
  rw [List.map_flatMap]
  congr 1
  funext p
  rw [List.map_map]
  rfl

/-- The unpruned root maximum over the flattened candidate pairs. -/
theorem plain_root_black_pairs (b : Board) (depth : Nat) :
    AI.plain_root_black b depth =
      List.foldl (fun a pm => max a (AI.plain_min (AI.result b pm.1 pm.2) depth)) ⊥
        (AI.rootPairs b) := by
  unfold AI.plain_root_black
  rw [plain_max_list_foldl, allChildren_eq_pairs, List.foldl_map]

/-- The unpruned root minimum over the flattened candidate pairs. -/
theorem plain_root_red_pairs (b : Board) (depth : Nat) :
    AI.plain_root_red b depth =
      List.foldl (fun a pm => min a (AI.plain_max (AI.result b pm.1 pm.2) depth)) ⊤
        (AI.rootPairs b) := by
  unfold AI.plain_root_red
  rw [plain_min_list_foldl, allChildren_eq_pairs, List.foldl_map]

/-- The BLACK root loop invariant: alpha always equals the best value, the
best value equals the running unpruned maximum over the candidates scanned
so far, and the recorded best pair's unpruned value is the best value. -/
theorem root_black_loop (b : Board) (depth : Nat) :
    ∀ (l : List (Piece × Coordinate)) (A : EInt) (bst : Option (Piece × Coordinate)),
      (bst = none → A = ⊥) →
      (∀ pm, bst = some pm → AI.plain_min (AI.result b pm.1 pm.2) depth = A) →
      (List.foldl (AI.root_black_step b depth) (A, bst, A) l).2.2 =
          (List.foldl (AI.root_black_step b depth) (A, bst, A) l).1 ∧
      (List.foldl (AI.root_black_step b depth) (A, bst, A) l).1 =
        List.foldl (fun a pm => max a (AI.plain_min (AI.result b pm.1 pm.2) depth)) A l ∧
      ((List.foldl (AI.root_black_step b depth) (A, bst, A) l).2.1 = none →
          (List.foldl (AI.root_black_step b depth) (A, bst, A) l).1 = ⊥) ∧
      (∀ pm, (List.foldl (AI.root_black_step b depth) (A, bst, A) l).2.1 = some pm →
          AI.plain_min (AI.result b pm.1 pm.2) depth =
            (List.foldl (AI.root_black_step b depth) (A, bst, A) l).1) := by
  intro l
  induction l with
  | nil =>
      intro A bst hnone hsome
      exact ⟨rfl, rfl, hnone, hsome⟩
  | cons pm0 rest ih =>
      intro A bst hnone hsome
      rw [List.foldl_cons, List.foldl_cons]
      set m := AI.plain_min (AI.result b pm0.1 pm0.2) depth with hm
      set val := AI.min_value (AI.result b pm0.1 pm0.2) A ⊤ depth with hval
      by_cases hsel : A < val
      · have hAtop : A < ⊤ := lt_of_lt_of_le hsel le_top
        have hEHL := (ab_EHL depth).2 (AI.result b pm0.1 pm0.2) A ⊤ hAtop
        have hvm : val = m := by
          rcases lt_or_le val ⊤ with h | h
          · exact hEHL.1 hsel h
          · have hv : val = ⊤ := le_antisymm le_top h
            have hmt : m = ⊤ := le_antisymm le_top (hEHL.2.2 h)
            rw [hv, hmt]
        have hstep : AI.root_black_step b depth (A, bst, A) pm0 = (val, some pm0, val) := by
          simp only [AI.root_black_step]
          rw [if_pos hsel]
          dsimp only
          rw [max_eq_right (le_of_lt hsel)]
        rw [hstep]
        have hmax : max A m = val := by
          rw [← hvm]
          exact max_eq_right (le_of_lt hsel)
        rw [hmax]
        exact ih val (some pm0) (fun h => Option.noConfusion h)
          (fun pm h => by injection h with h; subst h; exact hvm.symm)
      · have hva : val ≤ A := not_lt.mp hsel
        have hstep : AI.root_black_step b depth (A, bst, A) pm0 = (A, bst, A) := by
          simp only [AI.root_black_step]
          rw [if_neg hsel]
          dsimp only
          rw [max_self]
        rw [hstep]
        have hmA : m ≤ A := by
          rcases eq_or_lt_of_le (le_top : A ≤ ⊤) with h | h
          · rw [h]
            exact le_top
          · exact ((ab_EHL depth).2 (AI.result b pm0.1 pm0.2) A ⊤ h).2.1 hva
        have hmax : max A m = A := max_eq_left hmA
        rw [hmax]
        exact ih A bst hnone hsome

/-- The RED root loop invariant, dual to `root_black_loop`. -/
theorem root_red_loop (b : Board) (depth : Nat) :
    ∀ (l : List (Piece × Coordinate)) (A : EInt) (bst : Option (Piece × Coordinate)),
      (bst = none → A = ⊤) →
      (∀ pm, bst = some pm → AI.plain_max (AI.result b pm.1 pm.2) depth = A) →
      (List.foldl (AI.root_red_step b depth) (A, bst, A) l).2.2 =
          (List.foldl (AI.root_red_step b depth) (A, bst, A) l).1 ∧
      (List.foldl (AI.root_red_step b depth) (A, bst, A) l).1 =
        List.foldl (fun a pm => min a (AI.plain_max (AI.result b pm.1 pm.2) depth)) A l ∧
      ((List.foldl (AI.root_red_step b depth) (A, bst, A) l).2.1 = none →
          (List.foldl (AI.root_red_step b depth) (A, bst, A) l).1 = ⊤) ∧
      (∀ pm, (List.foldl (AI.root_red_step b depth) (A, bst, A) l).2.1 = some pm →
          AI.plain_max (AI.result b pm.1 pm.2) depth =
            (List.foldl (AI.root_red_step b depth) (A, bst, A) l).1) := by
  intro l
  induction l with
  | nil =>
      intro A bst hnone hsome
      exact ⟨rfl, rfl, hnone, hsome⟩
  | cons pm0 rest ih =>
      intro A bst hnone hsome
      rw [List.foldl_cons, List.foldl_cons]
      set m := AI.plain_max (AI.result b pm0.1 pm0.2) depth with hm
      set val := AI.max_value (AI.result b pm0.1 pm0.2) ⊥ A depth with hval
      by_cases hsel : val < A
      · have hAbot : (⊥ : EInt) < A := lt_of_le_of_lt bot_le hsel
        have hEHL := (ab_EHL depth).1 (AI.result b pm0.1 pm0.2) ⊥ A hAbot
        have hvm : val = m := by
          rcases lt_or_le (⊥ : EInt) val with h | h
          · exact hEHL.1 h hsel
          · have hv : val = ⊥ := le_antisymm h bot_le
            have hmt : m = ⊥ := le_antisymm (hEHL.2.1 h) bot_le
            rw [hv, hmt]
        have hstep : AI.root_red_step b depth (A, bst, A) pm0 = (val, some pm0, val) := by
          simp only [AI.root_red_step]
          rw [if_pos hsel]
          dsimp only
          rw [min_eq_right (le_of_lt hsel)]
        rw [hstep]
        have hmin : min A m = val := by
          rw [← hvm]
          exact min_eq_right (le_of_lt hsel)
        rw [hmin]
        exact ih val (some pm0) (fun h => Option.noConfusion h)
          (fun pm h => by injection h with h; subst h; exact hvm.symm)
      · have hva : A ≤ val := not_lt.mp hsel
        have hstep : AI.root_red_step b depth (A, bst, A) pm0 = (A, bst, A) := by
          simp only [AI.root_red_step]
          rw [if_neg hsel]
          dsimp only
          rw [min_self]
        rw [hstep]
        have hmA : A ≤ m := by
          rcases eq_or_lt_of_le (bot_le : (⊥ : EInt) ≤ A) with h | h
          · rw [← h]
            exact bot_le
          · exact ((ab_EHL depth).1 (AI.result b pm0.1 pm0.2) ⊥ A h).2.2 hva
        have hmin : min A m = A := min_eq_left hmA
        rw [hmin]
        exact ih A bst hnone hsome

/-- C3.  For every board and every search depth: the best value the
`minimax` root loops (`root_black` for the maximizer, `root_red` for the
minimizer, whose recorded pair is exactly what `minimax` returns) commit to
equals the value of an unpruned full minimax of the same depth on the same
board, and the chosen (piece, destination)'s own unpruned value equals that
committed value — pruning never changes the chosen move's true minimax
value. -/
theorem alphabeta_root_value : ∀ (b : Board) (depth : Nat),
    (AI.root_black b depth).1 = AI.plain_root_black b depth ∧
    (∀ pm, (AI.root_black b depth).2.1 = some pm →
        AI.plain_min (AI.result b pm.1 pm.2) depth = (AI.root_black b depth).1) ∧
    (AI.root_red b depth).1 = AI.plain_root_red b depth ∧
    (∀ pm, (AI.root_red b depth).2.1 = some pm →
        AI.plain_max (AI.result b pm.1 pm.2) depth = (AI.root_red b depth).1) := by
  intro b depth
  have hb := root_black_loop b depth (AI.rootPairs b) ⊥ none (fun _ => rfl)
    (fun pm h => Option.noConfusion h)
  have hr := root_red_loop b depth (AI.rootPairs b) ⊤ none (fun _ => rfl)
    (fun pm h => Option.noConfusion h)
  rw [root_black_eq, root_red_eq, plain_root_black_pairs, plain_root_red_pairs]
  exact ⟨hb.2.1, hb.2.2.2, hr.2.1, hr.2.2.2⟩
